import Mathlib

/-!
Verification of the RocksDB block-cache interface (include/rocksdb/cache.h).

Only the interface header is part of the repository under scrutiny; the
base-class member functions defined inline in that header (the helper-callback
Insert overload, the three-argument Release, isReady / Wait / WaitAll,
DisownData) are embedded directly from the source.  The concrete LRU shard,
the sharding router and the id counter are implemented elsewhere; where a
claim depends on them, the corresponding definitions are modelled from the
specification and are marked as such in their doc comments.
-/

namespace RocksCache

/-- Cache entry priority (cache.h, enum class Priority { HIGH, LOW }). -/
inductive Priority where
  | HIGH
  | LOW
deriving DecidableEq, Repr

/-- Status outcomes reachable by the cache operations under verification:
OK and Incomplete (the strict-capacity-limit failure, cache.h line 234). -/
inductive Status where
  | OK
  | Incomplete
deriving DecidableEq, Repr

/-! ## Single-key handle lifecycle (spec §4.1)

Modelled from the spec: the reference-counting / erase-pending state machine
of one handle (one generation of a key).  The implementation of the shard
holding the counts is not part of the header; the transitions below follow
spec §4.1 "Handle reference counting & the erase-pending state machine"
verbatim: Lookup increments the count of an indexed entry, Release decrements
and frees when the count reaches zero while the entry is out of the index (or
force_erase is set), Erase unlinks the entry from the index and frees it only
if unreferenced, and an overwriting Insert of the same key acts on the old
handle exactly like Erase. -/
structure HandleState where
  refCount : Nat
  inCache : Bool
  /-- number of times the deleter has been invoked on this handle -/
  deleterCalls : Nat
deriving DecidableEq, Repr

/-- Operations on the tracked key after its creating Insert (spec §4.1). -/
inductive KeyOp where
  | lookup
  | release (forceErase : Bool)
  | erase
  /-- an Insert of the same key: erases the tracked (old) handle -/
  | insertOverwrite
deriving DecidableEq, Repr

/-- Modelled from the spec: the handle created by Insert; ref_count starts at 1
when the caller asked for a handle slot, else at 0 (spec §4.1). -/
def insertNew (withHandle : Bool) : HandleState :=
  { refCount := if withHandle then 1 else 0, inCache := true, deleterCalls := 0 }

/-- Modelled from the spec: effect of Erase (and of an overwriting Insert) on
the tracked handle: unlink from the index; free immediately iff unreferenced
(spec §4.1). -/
def eraseStep (s : HandleState) : HandleState :=
  if s.inCache then
    if s.refCount = 0 then
      { refCount := 0, inCache := false, deleterCalls := s.deleterCalls + 1 }
    else
      { s with inCache := false }
  else s

/-- Modelled from the spec: one transition of the single-key state machine
(spec §4.1). -/
def stepOp (s : HandleState) : KeyOp → HandleState
  | .lookup =>
      if s.inCache then { s with refCount := s.refCount + 1 } else s
  | .release force =>
      if s.refCount - 1 = 0 ∧ (s.inCache = false ∨ force = true) then
        { refCount := 0, inCache := false, deleterCalls := s.deleterCalls + 1 }
      else
        { s with refCount := s.refCount - 1 }
  | .erase => eraseStep s
  | .insertOverwrite => eraseStep s

/-- A Release is only legal while the caller still holds the handle
(double release is undefined behavior, spec §4.1). -/
def validOp (s : HandleState) : KeyOp → Bool
  | .release _ => s.refCount != 0
  | _ => true

/-- Run a sequence of single-key operations. -/
def runOps (s : HandleState) : List KeyOp → HandleState
  | [] => s
  | op :: ops => runOps (stepOp s op) ops

/-- Every operation of the trace satisfies its precondition at the state where
it executes. -/
def validTrace (s : HandleState) : List KeyOp → Bool
  | [] => true
  | op :: ops => validOp s op && validTrace (stepOp s op) ops

/-- The lifecycle invariant of spec §3: the deleter has run (exactly once)
iff ref_count == 0 and in_cache == false. -/
def HandleInv (s : HandleState) : Prop :=
  s.deleterCalls ≤ 1 ∧ (s.deleterCalls = 1 ↔ (s.refCount = 0 ∧ s.inCache = false))

/-! ## Shard model (spec §3, §4.2)

The shard implementation (hash index + eviction list) is not part of the
header under src/; the definitions below are modelled from the spec.  Keys are
byte strings (modelled as String), values and deleters are opaque pointers
(modelled as numeric codes the cache never inspects), and a handle is the
unique numeric id of an entry.  The entry list doubles as the eviction scan
order (head scanned first); midpoint/priority placement within that order is
not modelled, since no claim under verification depends on the relative
eviction order, and metadata charging is not modelled (kDontChargeCacheMetadata
behaviour).  deleterLog records every deleter invocation (deleter, key, value)
in order. -/

/-- Modelled from the spec §3 "Handle": one live (not yet freed) cache entry. -/
structure Entry where
  id : Nat
  key : String
  value : Nat
  charge : Nat
  deleter : Nat
  priority : Priority
  refCount : Nat
  inCache : Bool
deriving DecidableEq, Repr

/-- Modelled from the spec §3 "Shard": entries in eviction-scan order, the
configured capacity, the strict-capacity-limit flag, a fresh-handle counter and
the log of deleter invocations. -/
structure Shard where
  entries : List Entry
  capacity : Nat
  strict : Bool
  nextId : Nat
  deleterLog : List (Nat × String × Nat)
deriving DecidableEq, Repr

/-- Usage of a list of entries: the sum of charges of the in-cache ones
(spec §3: usage is the sum of charges of all in_cache handles). -/
def usageL (l : List Entry) : Nat :=
  ((l.filter fun e => e.inCache).map fun e => e.charge).sum

/-- GetUsage (cache.h line 314): the memory size of the entries residing in
the cache. -/
def Shard.GetUsage (s : Shard) : Nat := usageL s.entries

/-- Modelled from the spec §4.2: the eviction sweep run when
usage + incoming_charge > capacity.  It scans from the head, freeing
unreferenced in-cache entries until the incoming charge fits; pinned entries
(outstanding references) are skipped and left in place.  Returns the surviving
entries and the deleter invocations of the evicted ones. -/
def evictScan (charge capacity : Nat) (kept : List Entry) :
    List Entry → List Entry × List (Nat × String × Nat)
  | [] => (kept, [])
  | e :: rest =>
    if usageL (kept ++ e :: rest) + charge ≤ capacity then
      (kept ++ e :: rest, [])
    else if e.refCount = 0 ∧ e.inCache = true then
      let p := evictScan charge capacity kept rest
      (p.1, (e.deleter, e.key, e.value) :: p.2)
    else
      evictScan charge capacity (kept ++ [e]) rest

/-- Modelled from the spec §4.1 / cache.h 251-258: Lookup returns the handle of
the in-cache entry for the key (incrementing its reference count) or none. -/
def Shard.Lookup (s : Shard) (k : String) : Option Nat × Shard :=
  match s.entries.find? (fun e => e.inCache && e.key == k) with
  | none => (none, s)
  | some e =>
      (some e.id,
       { s with entries := s.entries.map fun e' =>
           if e'.id = e.id then { e' with refCount := e'.refCount + 1 } else e' })

/-- Value (cache.h 280-284): the value encapsulated in a handle. -/
def Shard.Value (s : Shard) (hid : Nat) : Option Nat :=
  (s.entries.find? (fun e => e.id == hid)).map fun e => e.value

/-- Modelled from the spec §4.1 / cache.h 286-289: Erase removes the key's
entry from the index; the underlying entry is freed now iff unreferenced, else
kept alive until all existing handles are released. -/
def Shard.Erase (s : Shard) (k : String) : Shard :=
  match s.entries.find? (fun e => e.inCache && e.key == k) with
  | none => s
  | some e =>
      if e.refCount = 0 then
        { s with entries := s.entries.filter (fun e' => e'.id != e.id),
                 deleterLog := s.deleterLog ++ [(e.deleter, e.key, e.value)] }
      else
        { s with entries := s.entries.map fun e' =>
            if e'.id = e.id then { e' with inCache := false } else e' }

/-- Modelled from the spec §4.1 / cache.h 266-278: Release decrements the
reference count; when it reaches zero and the entry is out of the index (or
force_erase is set) the entry is erased and freed.  Returns whether the entry
was erased. -/
def Shard.Release (s : Shard) (hid : Nat) (forceErase : Bool) : Bool × Shard :=
  match s.entries.find? (fun e => e.id == hid) with
  | none => (false, s)
  | some e =>
      if e.refCount - 1 = 0 ∧ (e.inCache = false ∨ forceErase = true) then
        (true, { s with entries := s.entries.filter (fun e' => e'.id != hid),
                        deleterLog := s.deleterLog ++ [(e.deleter, e.key, e.value)] })
      else
        (false, { s with entries := s.entries.map fun e' =>
            if e'.id = hid then { e' with refCount := e'.refCount - 1 } else e' })

/-- Modelled from the spec §4.1/§4.2 / cache.h 231-249: Insert runs the
eviction sweep; if the charge still does not fit and strict_capacity_limit is
set it returns Incomplete without taking ownership of the value (the value is
cleaned up only when no handle slot was passed); otherwise the old entry for
the key is erased (overwrite) and the new entry is linked, with one reference
held by the caller when a handle slot was passed. -/
def Shard.Insert (s : Shard) (k : String) (v : Nat) (charge : Nat) (deleter : Nat)
    (withHandle : Bool) (prio : Priority) : Status × Option Nat × Shard :=
  let p := evictScan charge s.capacity [] s.entries
  let s2 : Shard := { s with entries := p.1, deleterLog := s.deleterLog ++ p.2 }
  if s2.strict = true ∧ s2.capacity < usageL p.1 + charge then
    (Status.Incomplete, none,
     if withHandle then s2
     else { s2 with deleterLog := s2.deleterLog ++ [(deleter, k, v)] })
  else
    let s3 := s2.Erase k
    let ent : Entry := { id := s3.nextId, key := k, value := v, charge := charge,
                         deleter := deleter, priority := prio,
                         refCount := if withHandle then 1 else 0, inCache := true }
    (Status.OK, if withHandle then some s3.nextId else none,
     { s3 with entries := s3.entries ++ [ent], nextId := s3.nextId + 1 })

/-! ## Base-class members embedded from the source -/

/-- From the source (cache.h 399-405): the base-class three-argument Release
takes the useful flag and delegates to the two-argument Release. -/
def Shard.ReleaseUseful (s : Shard) (hid : Nat) (useful : Bool) (forceErase : Bool) :
    Bool × Shard :=
  Shard.Release s hid forceErase

/-- From the source (cache.h 408): the base-class isReady returns true for
every handle. -/
def Shard.isReady (s : Shard) (hid : Nat) : Bool := true

/-- From the source (cache.h 414): the base-class Wait is a no-op. -/
def Shard.Wait (s : Shard) (hid : Nat) : Shard := s

/-- From the source (cache.h 418): the base-class WaitAll is a no-op. -/
def Shard.WaitAll (s : Shard) (hids : List Nat) : Shard := s

/-- From the source (cache.h 330-332): the base-class DisownData is a no-op
(the default implementation's body is empty). -/
def Shard.DisownData (s : Shard) : Shard := s

/-- Modelled from the spec / cache.h 219-223: destroying the cache destroys
all existing entries by calling the deleter passed via Insert.  Returns the
complete deleter-invocation history of the cache's lifetime. -/
def Shard.destroy (s : Shard) : List (Nat × String × Nat) :=
  s.deleterLog ++ s.entries.map fun e => (e.deleter, e.key, e.value)

/-- From the source (cache.h 184-188): a CacheItemHelperCallback fills
whichever of the size / save-to / deletion callback slots the caller requests;
modelled as the triple of callbacks it would write, each callback represented
by a numeric code the cache never inspects. -/
structure CacheItemHelperCallback where
  size_cb : Nat
  saveto_cb : Nat
  del_cb : Nat
deriving DecidableEq, Repr

/-- From the source (cache.h 184-188): invoking the helper callback fills
exactly the slots the caller passed (the non-null ones). -/
def runHelperCallback (h : CacheItemHelperCallback) (wantSize wantSave wantDel : Bool) :
    Option Nat × Option Nat × Option Nat :=
  (if wantSize then some h.size_cb else none,
   if wantSave then some h.saveto_cb else none,
   if wantDel then some h.del_cb else none)

/-- From the source (cache.h 371-378): the base-class Insert overload taking a
helper callback starts from a null deletion callback (code 0), invokes the
helper requesting only the deletion slot, and delegates to the plain Insert. -/
def Shard.InsertWithHelper (s : Shard) (k : String) (v : Nat)
    (helper_cb : CacheItemHelperCallback) (charge : Nat) (withHandle : Bool)
    (prio : Priority) : Status × Option Nat × Shard :=
  let delete_cb := ((runHelperCallback helper_cb false false true).2.2).getD 0
  Shard.Insert s k v charge delete_cb withHandle prio

/-- An empty strict shard with capacity 10, used to instantiate theorems with
hypotheses at concrete inputs. -/
def emptyShard : Shard :=
  { entries := [], capacity := 10, strict := true, nextId := 0, deleterLog := [] }

/-- A shard at full capacity with one unreferenced in-cache entry, used as a
concrete input for the strict-capacity claims. -/
def fullShard : Shard :=
  { entries := [{ id := 0, key := "b", value := 1, charge := 10, deleter := 2,
                  priority := Priority.LOW, refCount := 0, inCache := true }],
    capacity := 10, strict := true, nextId := 1, deleterLog := [] }

/-- At most one entry per key is in the index (spec §3: the shard's hash index
maps each key to at most one handle). -/
def keyUniq (l : List Entry) : Prop :=
  ∀ e ∈ l, ∀ e' ∈ l, e.inCache = true → e'.inCache = true → e.key = e'.key → e = e'

/-! ## Sharding router id counter (spec §3, §4.4) -/

/-- Modelled from the spec §3 "ShardedCache": the router owns the shard array
and the id counter backing NewId. -/
structure ShardedCache where
  shards : List Shard
  lastId : Nat
deriving DecidableEq, Repr

/-- Modelled from the spec §4.4 / cache.h 290-294: NewId returns the next
value of the monotonically increasing counter. -/
def ShardedCache.NewId (s : ShardedCache) : Nat × ShardedCache :=
  (s.lastId + 1, { s with lastId := s.lastId + 1 })

/-! ## NewLRUCache factory defaults (cache.h 44-49, 121-127) -/

/-- CacheMetadataChargePolicy (cache.h 44-47). -/
inductive CacheMetadataChargePolicy where
  | kDontChargeCacheMetadata
  | kFullChargeCacheMetadata
deriving DecidableEq, Repr

/-- From the source (cache.h 48-49). -/
def kDefaultCacheMetadataChargePolicy : CacheMetadataChargePolicy :=
  CacheMetadataChargePolicy.kFullChargeCacheMetadata

/-- From the source (cache.h 121-127): the trailing parameters of NewLRUCache.
The allocator is opaque (modelled by a numeric code); the ratio is exact, so
it is a rational here. -/
structure NewLRUCacheArgs where
  num_shard_bits : Int
  strict_capacity_limit : Bool
  high_pri_pool_ratio : Rat
  memory_allocator : Option Nat
  use_adaptive_mutex : Bool
  metadata_charge_policy : CacheMetadataChargePolicy
deriving DecidableEq, Repr

/-- From the source (cache.h 121-127): the default arguments of NewLRUCache.
kDefaultToAdaptiveMutex is an extern constant fixed by the build, so it is a
parameter. -/
def newLRUCacheDefaultArgs (kDefaultToAdaptiveMutex : Bool) : NewLRUCacheArgs :=
  { num_shard_bits := -1, strict_capacity_limit := false,
    high_pri_pool_ratio := 1 / 2, memory_allocator := none,
    use_adaptive_mutex := kDefaultToAdaptiveMutex,
    metadata_charge_policy := kDefaultCacheMetadataChargePolicy }

/-- Modelled from the spec §6 / cache.h 119-120: with num_shard_bits = -1 the
shard-bit count is determined automatically from the capacity: as many
doublings as fit while keeping every shard at least 512KB, capped at 6 bits. -/
def getDefaultCacheShardBits (capacity : Nat) : Nat :=
  min (Nat.log2 (capacity / (512 * 1024))) 6

/-- Capacity of one shard: the total capacity divided evenly over the
2 ^ shard-bits shards (spec §3). -/
def shardCapacity (capacity : Nat) : Nat :=
  capacity / 2 ^ getDefaultCacheShardBits capacity

theorem handleInv_insertNew (withHandle : Bool) : HandleInv (insertNew withHandle) := by
  cases withHandle <;> simp [HandleInv, insertNew]

theorem handleInv_step (s : HandleState) (op : KeyOp) (hs : HandleInv s)
    (hv : validOp s op = true) : HandleInv (stepOp s op) := by
  obtain ⟨hle, hiff⟩ := hs
  cases op with
  | lookup =>
      by_cases hc : s.inCache
      · simp only [stepOp, if_pos hc]
        refine ⟨hle, ?_⟩
        constructor
        · intro h1
          exact absurd ((hiff.mp h1).2) (by simp [hc])
        · rintro ⟨-, h2⟩
          simp [hc] at h2
      · simp only [stepOp, if_neg hc]
        exact ⟨hle, hiff⟩
  | release force =>
      have hr : s.refCount ≠ 0 := by simpa [validOp] using hv
      have hd0 : s.deleterCalls = 0 := by
        rcases Nat.lt_or_ge s.deleterCalls 1 with h | h
        · omega
        · have h1 : s.deleterCalls = 1 := by omega
          exact absurd (hiff.mp h1).1 hr
      by_cases hc : s.refCount - 1 = 0 ∧ (s.inCache = false ∨ force = true)
      · simp only [stepOp, if_pos hc]
        exact ⟨by simp [hd0], by simp [hd0]⟩
      · simp only [stepOp, if_neg hc]
        refine ⟨hle, ?_⟩
        constructor
        · intro h1
          exact absurd h1 (by simp [hd0])
        · rintro ⟨h1, h2⟩
          exact absurd ⟨h1, Or.inl h2⟩ hc
  | erase =>
      by_cases hc : s.inCache
      · by_cases h0 : s.refCount = 0
        · have hd0 : s.deleterCalls = 0 := by
            rcases Nat.lt_or_ge s.deleterCalls 1 with h | h
            · omega
            · have h1 : s.deleterCalls = 1 := by omega
              have := (hiff.mp h1).2
              simp [hc] at this
          simp only [stepOp, eraseStep, if_pos hc, if_pos h0]
          exact ⟨by simp [hd0], by simp [hd0]⟩
        · simp only [stepOp, eraseStep, if_pos hc, if_neg h0]
          refine ⟨hle, ?_⟩
          constructor
          · intro h1; exact absurd (hiff.mp h1).1 h0
          · rintro ⟨h1, -⟩; exact absurd h1 h0
      · simp only [stepOp, eraseStep, if_neg hc]
        exact ⟨hle, hiff⟩
  | insertOverwrite =>
      by_cases hc : s.inCache
      · by_cases h0 : s.refCount = 0
        · have hd0 : s.deleterCalls = 0 := by
            rcases Nat.lt_or_ge s.deleterCalls 1 with h | h
            · omega
            · have h1 : s.deleterCalls = 1 := by omega
              have := (hiff.mp h1).2
              simp [hc] at this
          simp only [stepOp, eraseStep, if_pos hc, if_pos h0]
          exact ⟨by simp [hd0], by simp [hd0]⟩
        · simp only [stepOp, eraseStep, if_pos hc, if_neg h0]
          refine ⟨hle, ?_⟩
          constructor
          · intro h1; exact absurd (hiff.mp h1).1 h0
          · rintro ⟨h1, -⟩; exact absurd h1 h0
      · simp only [stepOp, eraseStep, if_neg hc]
        exact ⟨hle, hiff⟩

theorem handleInv_runOps (s : HandleState) (ops : List KeyOp) (hs : HandleInv s)
    (hv : validTrace s ops = true) : HandleInv (runOps s ops) := by
  induction ops generalizing s with
  | nil => exact hs
  | cons op ops ih =>
      simp only [validTrace, Bool.and_eq_true] at hv
      exact ih (stepOp s op) (handleInv_step s op hs hv.1) hv.2

/-- C1: along every valid single-key trace starting from an Insert, the
handle's deleter has been invoked at most once, it has been invoked (exactly
once) precisely when ref_count == 0 and in_cache == false both hold, and an
entry erased while still referenced (ref_count > 0, in_cache == false) is
still alive: its deleter has not run, so Value() is still valid until the
last outstanding Release. -/
theorem handle_freed_iff_unreferenced_and_uncached
    (withHandle : Bool) (ops : List KeyOp)
    (hv : validTrace (insertNew withHandle) ops = true) :
    (runOps (insertNew withHandle) ops).deleterCalls ≤ 1 ∧
    ((runOps (insertNew withHandle) ops).deleterCalls = 1 ↔
      ((runOps (insertNew withHandle) ops).refCount = 0 ∧
       (runOps (insertNew withHandle) ops).inCache = false)) ∧
    (0 < (runOps (insertNew withHandle) ops).refCount →
      (runOps (insertNew withHandle) ops).deleterCalls = 0) := by
  have h := handleInv_runOps (insertNew withHandle) ops
    (handleInv_insertNew withHandle) hv
  obtain ⟨hle, hiff⟩ := h
  refine ⟨hle, hiff, ?_⟩
  intro hpos
  rcases Nat.lt_or_ge (runOps (insertNew withHandle) ops).deleterCalls 1 with h | h
  · omega
  · have h1 : (runOps (insertNew withHandle) ops).deleterCalls = 1 := by omega
    have := (hiff.mp h1).1
    omega

/-- Witness for C1: insert with a handle slot, erase while referenced (entry
stays alive), then the final Release frees it. -/
theorem handle_freed_iff_unreferenced_and_uncached_witness :
    validTrace (insertNew true) [.erase, .lookup, .release false] = true ∧
    ((runOps (insertNew true) [.erase, .lookup, .release false]).deleterCalls ≤ 1 ∧
     ((runOps (insertNew true) [.erase, .lookup, .release false]).deleterCalls = 1 ↔
       ((runOps (insertNew true) [.erase, .lookup, .release false]).refCount = 0 ∧
        (runOps (insertNew true) [.erase, .lookup, .release false]).inCache = false)) ∧
     (0 < (runOps (insertNew true) [.erase, .lookup, .release false]).refCount →
       (runOps (insertNew true) [.erase, .lookup, .release false]).deleterCalls = 0)) :=
  ⟨by decide,
   handle_freed_iff_unreferenced_and_uncached true [.erase, .lookup, .release false]
     (by decide)⟩

theorem usageL_append (l1 l2 : List Entry) :
    usageL (l1 ++ l2) = usageL l1 + usageL l2 := by
  simp [usageL, List.filter_append]

theorem usageL_cons (e : Entry) (l : List Entry) :
    usageL (e :: l) = (if e.inCache = true then e.charge else 0) + usageL l := by
  by_cases h : e.inCache = true <;> simp [usageL, List.filter_cons, h]

/-- The eviction sweep only removes entries: its resulting usage is at most the
usage it started from. -/
theorem evictScan_usage_le (charge capacity : Nat) :
    ∀ (rest kept : List Entry),
      usageL (evictScan charge capacity kept rest).1 ≤ usageL (kept ++ rest)
  | [], kept => by simp [evictScan]
  | e :: rest, kept => by
      simp only [evictScan]
      split
      · exact le_rfl
      · split
        · refine le_trans (evictScan_usage_le charge capacity rest kept) ?_
          rw [usageL_append, usageL_append, usageL_cons]
          omega
        · refine le_of_le_of_eq (evictScan_usage_le charge capacity rest (kept ++ [e])) ?_
          rw [List.append_assoc, List.singleton_append]

/-- Every entry surviving the eviction sweep was already present. -/
theorem evictScan_subset (charge capacity : Nat) :
    ∀ (rest kept : List Entry), ∀ e ∈ (evictScan charge capacity kept rest).1,
      e ∈ kept ∨ e ∈ rest
  | [], kept => by simp [evictScan]
  | e :: rest, kept => by
      simp only [evictScan]
      split
      · intro x hx
        rcases List.mem_append.mp hx with h | h
        · exact Or.inl h
        · exact Or.inr h
      · split
        · intro x hx
          rcases evictScan_subset charge capacity rest kept x hx with h | h
          · exact Or.inl h
          · exact Or.inr (List.mem_cons_of_mem e h)
        · intro x hx
          rcases evictScan_subset charge capacity rest (kept ++ [e]) x hx with h | h
          · rcases List.mem_append.mp h with h' | h'
            · exact Or.inl h'
            · exact Or.inr (by rw [List.mem_singleton.mp h']; exact List.mem_cons_self e rest)
          · exact Or.inr (List.mem_cons_of_mem e h)

/-- C2 (amended): with strict_capacity_limit set, inserting an entry whose
charge exceeds the total capacity returns Incomplete, yields no handle, does
not increase GetUsage (the eviction sweep may have decreased it), stores
nothing (the surviving entries are exactly the sweep's survivors, so the cache
took no ownership of the value), and the rejected value's deleter is invoked
exactly when no handle slot was passed. -/
theorem Insert_strict_over_capacity (s : Shard) (k : String) (v : Nat)
    (charge deleter : Nat) (withHandle : Bool) (prio : Priority)
    (hstrict : s.strict = true) (hover : s.capacity < charge) :
    (Shard.Insert s k v charge deleter withHandle prio).1 = Status.Incomplete ∧
    (Shard.Insert s k v charge deleter withHandle prio).2.1 = none ∧
    Shard.GetUsage (Shard.Insert s k v charge deleter withHandle prio).2.2 ≤
      Shard.GetUsage s ∧
    (Shard.Insert s k v charge deleter withHandle prio).2.2.entries =
      (evictScan charge s.capacity [] s.entries).1 ∧
    (Shard.Insert s k v charge deleter withHandle prio).2.2.deleterLog =
      s.deleterLog ++ (evictScan charge s.capacity [] s.entries).2 ++
        (if withHandle then [] else [(deleter, k, v)]) := by
  have hc : s.strict = true ∧
      s.capacity < usageL (evictScan charge s.capacity [] s.entries).1 + charge :=
    ⟨hstrict, lt_of_lt_of_le hover (Nat.le_add_left charge _)⟩
  have hu := evictScan_usage_le charge s.capacity s.entries []
  rw [List.nil_append] at hu
  simp only [Shard.Insert, Shard.GetUsage]
  rw [if_pos hc]
  cases withHandle <;>
    simp [Shard.GetUsage, hu, List.append_assoc]

/-- Witness for C2 at a concrete over-capacity insertion into the empty strict
shard. -/
theorem Insert_strict_over_capacity_witness :
    (Shard.Insert emptyShard "k" 7 11 3 false Priority.LOW).1 = Status.Incomplete ∧
    (Shard.Insert emptyShard "k" 7 11 3 false Priority.LOW).2.1 = none ∧
    Shard.GetUsage (Shard.Insert emptyShard "k" 7 11 3 false Priority.LOW).2.2 ≤
      Shard.GetUsage emptyShard ∧
    (Shard.Insert emptyShard "k" 7 11 3 false Priority.LOW).2.2.entries =
      (evictScan 11 emptyShard.capacity [] emptyShard.entries).1 ∧
    (Shard.Insert emptyShard "k" 7 11 3 false Priority.LOW).2.2.deleterLog =
      emptyShard.deleterLog ++ (evictScan 11 emptyShard.capacity [] emptyShard.entries).2 ++
        (if false then [] else [(3, "k", 7)]) :=
  Insert_strict_over_capacity emptyShard "k" 7 11 3 false Priority.LOW rfl
    (by decide)

/-- Counterexample to C2 as stated: a strict shard at full capacity (usage 10
of capacity 10, one unreferenced entry); inserting an entry of charge 11
returns Incomplete as claimed, but GetUsage is NOT unchanged: the eviction
sweep run inside the failed Insert evicted the unreferenced entry, dropping
usage from 10 to 0. -/
theorem Insert_strict_usage_changed_cex :
    fullShard.strict = true ∧
    Shard.GetUsage fullShard = fullShard.capacity ∧
    fullShard.capacity < 11 ∧
    (Shard.Insert fullShard "k" 7 11 3 false Priority.LOW).1 = Status.Incomplete ∧
    Shard.GetUsage (Shard.Insert fullShard "k" 7 11 3 false Priority.LOW).2.2 ≠
      Shard.GetUsage fullShard := by decide

/-- C3: the helper-callback Insert overload returns the same status and handle
and produces the same cache state as the plain Insert called with the same
key, value, charge, handle slot and priority and with the deletion callback
resolved by invoking the helper callback; the helper invocation resolves only
the deletion member of the size/save/delete triad. -/
theorem InsertWithHelper_eq_Insert (s : Shard) (k : String) (v : Nat)
    (hcb : CacheItemHelperCallback) (charge : Nat) (withHandle : Bool)
    (prio : Priority) :
    Shard.InsertWithHelper s k v hcb charge withHandle prio =
      Shard.Insert s k v charge hcb.del_cb withHandle prio ∧
    runHelperCallback hcb false false true = (none, none, some hcb.del_cb) :=
  ⟨rfl, rfl⟩

/-- C4: Lookup of an absent key returns the null handle and leaves the shard
unchanged, and Erase of an absent key leaves the shard unchanged; neither
operation signals an error. -/
theorem Lookup_Erase_absent (s : Shard) (k : String)
    (h : ∀ e ∈ s.entries, ¬(e.inCache = true ∧ e.key = k)) :
    Shard.Lookup s k = (none, s) ∧ Shard.Erase s k = s := by
  have hf : s.entries.find? (fun e => e.inCache && e.key == k) = none := by
    rw [List.find?_eq_none]
    intro e he
    simp only [Bool.and_eq_true, beq_iff_eq, not_and]
    intro hc hk
    exact h e he ⟨hc, hk⟩
  exact ⟨by simp [Shard.Lookup, hf], by simp [Shard.Erase, hf]⟩

/-- Witness for C4 at the empty shard and key "a". -/
theorem Lookup_Erase_absent_witness :
    Shard.Lookup emptyShard "a" = (none, emptyShard) ∧
    Shard.Erase emptyShard "a" = emptyShard :=
  Lookup_Erase_absent emptyShard "a" (by simp [emptyShard])

/-- C5: after Wait(handle) returns, isReady(handle) is true, and after
WaitAll(handles) returns, isReady is true for every handle in the vector; in
the base implementation isReady is constantly true and Wait/WaitAll return
immediately leaving the state unchanged. -/
theorem Wait_isReady (s : Shard) (hid : Nat) (hids : List Nat) :
    Shard.isReady (Shard.Wait s hid) hid = true ∧
    Shard.Wait s hid = s ∧
    (∀ h ∈ hids, Shard.isReady (Shard.WaitAll s hids) h = true) ∧
    Shard.WaitAll s hids = s :=
  ⟨rfl, rfl, fun _ _ => rfl, rfl⟩

/-- Witness for C5 at the empty shard and handles [4, 5]. -/
theorem Wait_isReady_witness :
    Shard.isReady (Shard.WaitAll emptyShard [4, 5]) 4 = true :=
  (Wait_isReady emptyShard 0 [4, 5]).2.2.1 4 (by decide)

/-- C9: the result and the effect on the cache of the base-class
three-argument Release do not depend on the useful flag, and the call is
equivalent to the two-argument Release with the same handle and force_erase. -/
theorem ReleaseUseful_independent_of_useful (s : Shard) (hid : Nat)
    (u1 u2 f : Bool) :
    Shard.ReleaseUseful s hid u1 f = Shard.ReleaseUseful s hid u2 f ∧
    Shard.ReleaseUseful s hid u1 f = Shard.Release s hid f :=
  ⟨rfl, rfl⟩

/-- C10: the base-class DisownData leaves every observable field of the cache
unchanged, so it does not disable the normal free path: cache destruction
still invokes the deleters of all remaining entries exactly as without the
call. -/
theorem DisownData_noop (s : Shard) :
    Shard.DisownData s = s ∧ (Shard.DisownData s).destroy = s.destroy :=
  ⟨rfl, rfl⟩

theorem keyUniq_of_subset {l l' : List Entry} (hsub : ∀ e ∈ l', e ∈ l)
    (h : keyUniq l) : keyUniq l' :=
  fun e he e' he' h1 h2 h3 => h e (hsub e he) e' (hsub e' he') h1 h2 h3

theorem find?_append_none {α : Type} (p : α → Bool) (l1 l2 : List α)
    (h : l1.find? p = none) : (l1 ++ l2).find? p = l2.find? p := by
  rw [List.find?_append, h]; rfl

/-- Lookup when the key is found: the entry is pinned (reference count
incremented) and its handle returned. -/
theorem Lookup_found (s : Shard) (k : String) (e0 : Entry)
    (hf : s.entries.find? (fun e => e.inCache && e.key == k) = some e0) :
    Shard.Lookup s k =
      (some e0.id,
       { s with entries := s.entries.map fun e' =>
           if e'.id = e0.id then { e' with refCount := e'.refCount + 1 } else e' }) := by
  simp only [Shard.Lookup, hf]

/-- Release that does not free: the found entry keeps its slot, only the
reference count drops. -/
theorem Release_found_keep (s : Shard) (hid : Nat) (forceErase : Bool) (e0 : Entry)
    (hf : s.entries.find? (fun e => e.id == hid) = some e0)
    (hc : ¬(e0.refCount - 1 = 0 ∧ (e0.inCache = false ∨ forceErase = true))) :
    Shard.Release s hid forceErase =
      (false,
       { s with entries := s.entries.map fun e' =>
           if e'.id = hid then { e' with refCount := e'.refCount - 1 } else e' }) := by
  simp only [Shard.Release, hf]
  rw [if_neg hc]

/-- After an Erase of key k, no surviving entry is still indexed under k. -/
theorem Erase_no_inCache_key (s : Shard) (k : String) (hk : keyUniq s.entries) :
    ∀ e ∈ (Shard.Erase s k).entries, ¬(e.inCache = true ∧ e.key = k) := by
  intro e he hcon
  cases hf : s.entries.find? (fun e => e.inCache && e.key == k) with
  | none =>
      have hE : Shard.Erase s k = s := by
        simp only [Shard.Erase, hf]
      rw [hE] at he
      have := List.find?_eq_none.mp hf e he
      simp only [Bool.and_eq_true, beq_iff_eq, not_and] at this
      exact this hcon.1 hcon.2
  | some e0 =>
      have he0mem : e0 ∈ s.entries := List.mem_of_find?_eq_some hf
      have he0p := List.find?_some hf
      simp only [Bool.and_eq_true, beq_iff_eq] at he0p
      have hE : Shard.Erase s k =
          if e0.refCount = 0 then
            { s with entries := s.entries.filter (fun e' => e'.id != e0.id),
                     deleterLog := s.deleterLog ++ [(e0.deleter, e0.key, e0.value)] }
          else
            { s with entries := s.entries.map fun e' =>
                if e'.id = e0.id then { e' with inCache := false } else e' } := by
        simp only [Shard.Erase, hf]
      rw [hE] at he
      by_cases h0 : e0.refCount = 0
      · rw [if_pos h0] at he
        simp only [List.mem_filter, bne_iff_ne, ne_eq] at he
        have : e = e0 := hk e he.1 e0 he0mem hcon.1 he0p.1 (hcon.2.trans he0p.2.symm)
        exact he.2 (congrArg Entry.id this)
      · rw [if_neg h0] at he
        simp only [List.mem_map] at he
        obtain ⟨e', he', hfe⟩ := he
        by_cases hid : e'.id = e0.id
        · rw [if_pos hid] at hfe
          rw [← hfe] at hcon
          simp at hcon
        · rw [if_neg hid] at hfe
          rw [← hfe] at hcon
          have : e' = e0 := hk e' he' e0 he0mem hcon.1 he0p.1 (hcon.2.trans he0p.2.symm)
          exact hid (congrArg Entry.id this)

/-- Every entry surviving an Erase carries the id of a pre-existing entry. -/
theorem Erase_ids (s : Shard) (k : String) :
    ∀ e ∈ (Shard.Erase s k).entries, ∃ e0 ∈ s.entries, e.id = e0.id := by
  intro e he
  cases hf : s.entries.find? (fun e => e.inCache && e.key == k) with
  | none =>
      have hE : Shard.Erase s k = s := by
        simp only [Shard.Erase, hf]
      rw [hE] at he
      exact ⟨e, he, rfl⟩
  | some e0 =>
      have hE : Shard.Erase s k =
          if e0.refCount = 0 then
            { s with entries := s.entries.filter (fun e' => e'.id != e0.id),
                     deleterLog := s.deleterLog ++ [(e0.deleter, e0.key, e0.value)] }
          else
            { s with entries := s.entries.map fun e' =>
                if e'.id = e0.id then { e' with inCache := false } else e' } := by
        simp only [Shard.Erase, hf]
      rw [hE] at he
      by_cases h0 : e0.refCount = 0
      · rw [if_pos h0] at he
        simp only [List.mem_filter] at he
        exact ⟨e, he.1, rfl⟩
      · rw [if_neg h0] at he
        simp only [List.mem_map] at he
        obtain ⟨e', he', hfe⟩ := he
        refine ⟨e', he', ?_⟩
        by_cases hid : e'.id = e0.id
        · rw [if_pos hid] at hfe
          rw [← hfe]
        · rw [if_neg hid] at hfe
          rw [← hfe]

/-- Erase never touches the fresh-id counter. -/
theorem Erase_nextId (s : Shard) (k : String) :
    (Shard.Erase s k).nextId = s.nextId := by
  unfold Shard.Erase
  split
  · rfl
  · split <;> rfl

/-- A shard whose entry list is some prefix followed by one fresh in-cache
entry: Lookup finds the fresh entry and pins it, Value reads it back, a
Release without force_erase merely unpins it, and a second Lookup still finds
it. -/
theorem Lookup_Release_Lookup (s4 : Shard) (pre : List Entry) (ent : Entry)
    (hent : s4.entries = pre ++ [ent])
    (hkey : ∀ e ∈ pre, ¬(e.inCache = true ∧ e.key = ent.key))
    (hid : ∀ e ∈ pre, e.id ≠ ent.id)
    (hin : ent.inCache = true) :
    ∃ s5 s6,
      Shard.Lookup s4 ent.key = (some ent.id, s5) ∧
      Shard.Value s5 ent.id = some ent.value ∧
      Shard.Release s5 ent.id false = (false, s6) ∧
      (Shard.Lookup s6 ent.key).1 ≠ none := by
  have hpre1 : pre.find? (fun e => e.inCache && e.key == ent.key) = none := by
    rw [List.find?_eq_none]
    intro e he
    simp only [Bool.and_eq_true, beq_iff_eq, not_and]
    intro h1 h2
    exact hkey e he ⟨h1, h2⟩
  have hpent : (ent.inCache && ent.key == ent.key) = true := by simp [hin]
  have hfind4 : s4.entries.find? (fun e => e.inCache && e.key == ent.key) = some ent := by
    rw [hent, find?_append_none _ _ _ hpre1]
    exact List.find?_cons_of_pos _ hpent
  have hmap_pre : ∀ (g : Entry → Entry), (∀ a ∈ pre, g a = a) → pre.map g = pre := by
    intro g hg
    conv_rhs => rw [← List.map_id pre]
    exact List.map_congr_left hg
  set ent1 : Entry := { ent with refCount := ent.refCount + 1 } with hent1
  have hbump : s4.entries.map
      (fun e' => if e'.id = ent.id then { e' with refCount := e'.refCount + 1 } else e') =
      pre ++ [ent1] := by
    rw [hent, List.map_append, hmap_pre _ (fun a ha => if_neg (hid a ha))]
    simp [hent1]
  have hlookup4 : Shard.Lookup s4 ent.key = (some ent.id, { s4 with entries := pre ++ [ent1] }) := by
    rw [Lookup_found s4 ent.key ent hfind4, hbump]
  set s5 : Shard := { s4 with entries := pre ++ [ent1] } with hs5
  have hprenone : pre.find? (fun e => e.id == ent.id) = none := by
    rw [List.find?_eq_none]
    intro e he
    simp [hid e he]
  have hfind5 : s5.entries.find? (fun e => e.id == ent.id) = some ent1 := by
    show (pre ++ [ent1]).find? (fun e => e.id == ent.id) = some ent1
    rw [find?_append_none _ _ _ hprenone]
    exact List.find?_cons_of_pos _ (by simp [hent1])
  have hvalue : Shard.Value s5 ent.id = some ent.value := by
    simp [Shard.Value, hfind5, hent1]
  have hrelcond : ¬(ent1.refCount - 1 = 0 ∧ (ent1.inCache = false ∨ false = true)) := by
    simp [hent1, hin]
  have hdrop : s5.entries.map
      (fun e' => if e'.id = ent.id then { e' with refCount := e'.refCount - 1 } else e') =
      pre ++ [ent] := by
    show (pre ++ [ent1]).map _ = pre ++ [ent]
    rw [List.map_append, hmap_pre _ (fun a ha => if_neg (hid a ha))]
    simp [hent1]
  have hrelease : Shard.Release s5 ent.id false = (false, { s5 with entries := pre ++ [ent] }) := by
    rw [Release_found_keep s5 ent.id false ent1 hfind5 hrelcond, hdrop]
  set s6 : Shard := { s5 with entries := pre ++ [ent] } with hs6
  have hfind6 : s6.entries.find? (fun e => e.inCache && e.key == ent.key) = some ent := by
    show (pre ++ [ent]).find? (fun e => e.inCache && e.key == ent.key) = some ent
    rw [find?_append_none _ _ _ hpre1]
    exact List.find?_cons_of_pos _ hpent
  refine ⟨s5, s6, hlookup4, hvalue, hrelease, ?_⟩
  rw [Lookup_found s6 ent.key ent hfind6]
  simp

/-- The state produced by a successful Insert: the eviction sweep's survivors,
minus the overwritten old entry for the key, plus the freshly linked entry. -/
theorem Insert_ok_shape (s : Shard) (k : String) (v : Nat) (charge deleter : Nat)
    (withHandle : Bool) (prio : Priority) (s2 s3 : Shard) (ent : Entry)
    (hs2 : s2 =
      { s with
        entries := (evictScan charge s.capacity [] s.entries).1,
        deleterLog := s.deleterLog ++ (evictScan charge s.capacity [] s.entries).2 })
    (hs3 : s3 = s2.Erase k)
    (hentdef : ent =
      { id := s3.nextId, key := k, value := v, charge := charge,
        deleter := deleter, priority := prio,
        refCount := if withHandle then 1 else 0, inCache := true })
    (hok : (Shard.Insert s k v charge deleter withHandle prio).1 = Status.OK) :
    (Shard.Insert s k v charge deleter withHandle prio).2.2 =
      { s3 with entries := s3.entries ++ [ent], nextId := s3.nextId + 1 } := by
  subst hs2 hs3 hentdef
  simp only [Shard.Insert] at hok ⊢
  split at hok
  case isTrue h => simp at hok
  case isFalse h => rw [if_neg h]

/-- C6: a successful Insert of key k with value v followed by a Lookup of k
yields a non-null handle whose Value() equals v; after releasing that handle
without force_erase, a subsequent Lookup of k still succeeds (nothing in the
trace evicts or erases k). -/
theorem Insert_Lookup_roundtrip (s : Shard) (k : String) (v : Nat)
    (charge deleter : Nat) (withHandle : Bool) (prio : Priority)
    (hkeys : keyUniq s.entries) (hids : ∀ e ∈ s.entries, e.id < s.nextId)
    (hok : (Shard.Insert s k v charge deleter withHandle prio).1 = Status.OK) :
    ∃ hid s5 s6,
      Shard.Lookup (Shard.Insert s k v charge deleter withHandle prio).2.2 k
        = (some hid, s5) ∧
      Shard.Value s5 hid = some v ∧
      Shard.Release s5 hid false = (false, s6) ∧
      (Shard.Lookup s6 k).1 ≠ none := by
  set s2 : Shard :=
    { s with
      entries := (evictScan charge s.capacity [] s.entries).1,
      deleterLog := s.deleterLog ++ (evictScan charge s.capacity [] s.entries).2 }
    with hs2
  have hsub2 : ∀ e ∈ s2.entries, e ∈ s.entries := by
    intro e he
    rcases evictScan_subset charge s.capacity s.entries [] e he with h | h
    · simp at h
    · exact h
  have hkeys2 : keyUniq s2.entries := keyUniq_of_subset hsub2 hkeys
  have hids2 : ∀ e ∈ s2.entries, e.id < s2.nextId := fun e he => hids e (hsub2 e he)
  set s3 : Shard := s2.Erase k with hs3
  have hkey3 : ∀ e ∈ s3.entries, ¬(e.inCache = true ∧ e.key = k) :=
    Erase_no_inCache_key s2 k hkeys2
  have hids3 : ∀ e ∈ s3.entries, e.id < s3.nextId := by
    intro e he
    rcases Erase_ids s2 k e he with ⟨e0, he0, hid0⟩
    have hn : s3.nextId = s2.nextId := Erase_nextId s2 k
    rw [hn, hid0]
    exact hids2 e0 he0
  set ent : Entry :=
    { id := s3.nextId, key := k, value := v, charge := charge,
      deleter := deleter, priority := prio,
      refCount := if withHandle then 1 else 0, inCache := true }
    with hentdef
  have hshape := Insert_ok_shape s k v charge deleter withHandle prio s2 s3 ent
    hs2 hs3 hentdef hok
  have hkeyp : ∀ e ∈ s3.entries, ¬(e.inCache = true ∧ e.key = ent.key) := by
    intro e he
    simp only [hentdef]
    exact hkey3 e he
  have hidp : ∀ e ∈ s3.entries, e.id ≠ ent.id := by
    intro e he
    have := hids3 e he
    simp only [hentdef]
    omega
  have hinent : ent.inCache = true := by simp [hentdef]
  obtain ⟨s5, s6, h1, h2, h3, h4⟩ :=
    Lookup_Release_Lookup
      { s3 with entries := s3.entries ++ [ent], nextId := s3.nextId + 1 }
      s3.entries ent rfl hkeyp hidp hinent
  have hkk : ent.key = k := by simp [hentdef]
  rw [hkk] at h1 h4
  have hvv : ent.value = v := by simp [hentdef]
  rw [hvv] at h2
  refine ⟨ent.id, s5, s6, ?_, h2, h3, h4⟩
  rw [hshape]
  exact h1

/-- Witness for C6: inserting "a" with value 7 and charge 3 into the empty
strict shard (capacity 10) succeeds, and the round trip goes through. -/
theorem Insert_Lookup_roundtrip_witness :
    ∃ hid s5 s6,
      Shard.Lookup (Shard.Insert emptyShard "a" 7 3 1 true Priority.LOW).2.2 "a"
        = (some hid, s5) ∧
      Shard.Value s5 hid = some 7 ∧
      Shard.Release s5 hid false = (false, s6) ∧
      (Shard.Lookup s6 "a").1 ≠ none :=
  Insert_Lookup_roundtrip emptyShard "a" 7 3 1 true Priority.LOW
    (by intro e he; simp [emptyShard] at he) (by intro e he; simp [emptyShard] at he)
    (by decide)

/-- C7: of two successive NewId calls, the second returns a strictly larger
id. -/
theorem NewId_strict_mono (s : ShardedCache) :
    (ShardedCache.NewId s).1 < (ShardedCache.NewId (ShardedCache.NewId s).2).1 := by
  simp [ShardedCache.NewId]

/-- C8 (amended): the NewLRUCache defaults are num_shard_bits = -1,
strict_capacity_limit = false, high_pri_pool_ratio = 0.5, no allocator, the
platform-default adaptive-mutex flag, and full metadata charging; the
automatic selection never uses more than 6 shard bits, and every shard holds
at least 512KB whenever the total capacity is at least 512KB. -/
theorem newLRUCache_defaults (b : Bool) :
    (newLRUCacheDefaultArgs b).num_shard_bits = -1 ∧
    (newLRUCacheDefaultArgs b).strict_capacity_limit = false ∧
    (newLRUCacheDefaultArgs b).high_pri_pool_ratio = 1 / 2 ∧
    (newLRUCacheDefaultArgs b).memory_allocator = none ∧
    (newLRUCacheDefaultArgs b).use_adaptive_mutex = b ∧
    (newLRUCacheDefaultArgs b).metadata_charge_policy =
      CacheMetadataChargePolicy.kFullChargeCacheMetadata ∧
    kDefaultCacheMetadataChargePolicy =
      CacheMetadataChargePolicy.kFullChargeCacheMetadata ∧
    (∀ capacity : Nat, getDefaultCacheShardBits capacity ≤ 6) ∧
    (∀ capacity : Nat, 512 * 1024 ≤ capacity →
      512 * 1024 ≤ shardCapacity capacity) := by
  refine ⟨rfl, rfl, rfl, rfl, rfl, rfl, rfl, fun c => min_le_right _ _, ?_⟩
  intro c hc
  have hq : c / (512 * 1024) ≠ 0 := by
    have : 1 ≤ c / (512 * 1024) :=
      (Nat.one_le_div_iff (by norm_num)).mpr (by simpa using hc)
    omega
  have hble : 2 ^ getDefaultCacheShardBits c ≤ c / (512 * 1024) := by
    calc 2 ^ getDefaultCacheShardBits c
        ≤ 2 ^ Nat.log2 (c / (512 * 1024)) :=
          Nat.pow_le_pow_right (by norm_num) (min_le_left _ _)
      _ = 2 ^ Nat.log 2 (c / (512 * 1024)) := by rw [Nat.log2_eq_log_two]
      _ ≤ c / (512 * 1024) := Nat.pow_log_le_self 2 hq
  have hmul : 512 * 1024 * 2 ^ getDefaultCacheShardBits c ≤ c := by
    calc 512 * 1024 * 2 ^ getDefaultCacheShardBits c
        ≤ 512 * 1024 * (c / (512 * 1024)) := Nat.mul_le_mul_left _ hble
      _ ≤ c := Nat.mul_div_le c (512 * 1024)
  exact (Nat.le_div_iff_mul_le (Nat.pos_pow_of_pos _ (by norm_num))).mpr hmul

/-- Witness for C8: with capacity 2^20 (1MB) the automatic selection yields
one shard bit and two 512KB shards. -/
theorem newLRUCache_defaults_witness :
    512 * 1024 ≤ shardCapacity (2 ^ 20) :=
  (newLRUCache_defaults true).2.2.2.2.2.2.2.2 (2 ^ 20) (by norm_num)

/-- Counterexample to C8 as stated: with a total capacity of 1 byte the
automatic selection produces a single shard holding 1 byte, far below 512KB,
so "every shard holds at least 512KB" fails for capacities below 512KB. -/
theorem newLRUCache_shard_size_cex :
    getDefaultCacheShardBits 1 = 0 ∧ shardCapacity 1 < 512 * 1024 := by
  have h0 : getDefaultCacheShardBits 1 = 0 := by
    simp [getDefaultCacheShardBits, Nat.log2_eq_log_two]
  exact ⟨h0, by norm_num [shardCapacity, h0]⟩

end RocksCache
